import Mathlib

/-!
Verification of the nearest-neighbor distance engine of `operator_distances.py`
(cartora repository).

The embedding works over exact real numbers.  Where the Python/numpy code can
produce the floating-point values `inf` and `NaN`, the model is explicit about
them: the `np.inf` sentinel used to mask the self-distance is modelled with
`WithTop ℝ`, a square root of a negative number is modelled by an `Option`
returning `none`, and a parallel "F" model with values in `Option ℝ`
(`none` = NaN) reproduces numpy's NaN-propagation through arithmetic,
`np.min` and the aggregation statistics.
-/

namespace Cartora

noncomputable section

/-- Degrees to radians, `np.radians(x)`. -/
def toRadians (x : ℝ) : ℝ := x * (Real.pi / 180)

/-- Two-argument arctangent `np.arctan2 y x`, by quadrant cases. -/
def arctan2 (y x : ℝ) : ℝ :=
  if 0 < x then Real.arctan (y / x)
  else if x < 0 ∧ 0 ≤ y then Real.arctan (y / x) + Real.pi
  else if x < 0 ∧ y < 0 then Real.arctan (y / x) - Real.pi
  else if x = 0 ∧ 0 < y then Real.pi / 2
  else if x = 0 ∧ y < 0 then -(Real.pi / 2)
  else 0

/-- The intermediate quantity `a` of `haversine_distance`
(line 93 of operator_distances.py). -/
def haversine_a (lat1 lon1 lat2 lon2 : ℝ) : ℝ :=
  Real.sin ((toRadians lat2 - toRadians lat1) / 2) ^ 2 +
    Real.cos (toRadians lat1) * Real.cos (toRadians lat2) *
      Real.sin ((toRadians lon2 - toRadians lon1) / 2) ^ 2

/-- The haversine great-circle distance in kilometres
(lines 84-96 of operator_distances.py). -/
def haversine_distance (lat1 lon1 lat2 lon2 : ℝ) : ℝ :=
  6371 * (2 * arctan2 (Real.sqrt (haversine_a lat1 lon1 lat2 lon2))
    (Real.sqrt (1 - haversine_a lat1 lon1 lat2 lon2)))

/-- Square root with its domain check made explicit: `np.sqrt` of a negative
number yields NaN, modelled as `none`. -/
def checkedSqrt (x : ℝ) : Option ℝ := if 0 ≤ x then some (Real.sqrt x) else none

/-- Haversine distance with the two square-root domain checks explicit;
a `none` result models a NaN produced by a square root of a negative number. -/
def haversineChecked (lat1 lon1 lat2 lon2 : ℝ) : Option ℝ :=
  (checkedSqrt (haversine_a lat1 lon1 lat2 lon2)).bind fun sa =>
    (checkedSqrt (1 - haversine_a lat1 lon1 lat2 lon2)).map fun sb =>
      6371 * (2 * arctan2 sa sb)

/-- Haversine distance between two latitude/longitude pairs. -/
def havPair (p q : ℝ × ℝ) : ℝ := haversine_distance p.1 p.2 q.1 q.2

/-- The body of the loop of `process_operator_chunk` for one index `i`
(lines 107-120): the vector of distances from point `i` to every point of the
set, with the self entry overwritten by `np.inf` (modelled as `⊤`), reduced by
`np.min`. -/
def pointMin (coords : List (ℝ × ℝ)) (i : ℕ) : WithTop ℝ :=
  ((coords.map fun q => ((havPair (coords.getD i (0, 0)) q : ℝ) : WithTop ℝ)).set i ⊤).foldr
    min ⊤

/-- `process_operator_chunk(args)` (lines 98-124): for every index `i` of the
set, the minimum distance to any other point; a minimum equal to `np.inf` is
not appended.  The second component of `args` is `chunk_size`, which the
source unpacks and never uses. -/
def process_operator_chunk (args : List (ℝ × ℝ) × ℕ) : List ℝ :=
  (List.range args.1.length).filterMap fun i =>
    if pointMin args.1 i = ⊤ then none else some ((pointMin args.1 i).untop' 0)

/-- Indices of the other points of a set of size `n`: every `j ≠ i`. -/
def othersIdx (i n : ℕ) : List ℕ := (List.range n).filter fun j => decide (j ≠ i)

/-- Modelled from the spec (§4.2, §5): the per-chunk minimum for point `i`
over the other points the chunk covers, a chunk being a list of indices. -/
def chunkMin (coords : List (ℝ × ℝ)) (i : ℕ) (part : List ℕ) : WithTop ℝ :=
  (part.map fun j =>
    ((havPair (coords.getD i (0, 0)) (coords.getD j (0, 0)) : ℝ) : WithTop ℝ)).foldr min ⊤

/-- Modelled from the spec (§4.2, §5): the chunked per-point minimum, the
minimum across chunks of the per-chunk minima. -/
def chunkedMin (coords : List (ℝ × ℝ)) (i : ℕ) (parts : List (List ℕ)) : WithTop ℝ :=
  (parts.map (chunkMin coords i)).foldr min ⊤

/-- Two coordinate pairs that denote the same physical location on the sphere:
identical coordinates, both at the north or both at the south pole, or equal
latitudes with longitudes 360 degrees apart. -/
def sameLocation (p q : ℝ × ℝ) : Prop :=
  p = q ∨ (p.1 = 90 ∧ q.1 = 90) ∨ (p.1 = -90 ∧ q.1 = -90) ∨
    (p.1 = q.1 ∧ (p.2 - q.2 = 360 ∨ q.2 - p.2 = 360))

/-- `np.min` over a nonempty list (0 on the empty list, never used there). -/
def npMin (l : List ℝ) : ℝ :=
  match l with
  | [] => 0
  | a :: t => t.foldl min a

/-- `np.max` over a nonempty list (0 on the empty list, never used there). -/
def npMax (l : List ℝ) : ℝ :=
  match l with
  | [] => 0
  | a :: t => t.foldl max a

/-- `np.mean`: arithmetic mean. -/
def npMean (l : List ℝ) : ℝ := l.sum / l.length

/-- Sorting step of `np.median`. -/
def sortedList (l : List ℝ) : List ℝ := l.mergeSort fun a b => decide (a ≤ b)

/-- `np.median`: middle element of the sorted list for odd length, average of
the two middle elements for even length. -/
def npMedian (l : List ℝ) : ℝ :=
  if l.length % 2 = 1 then (sortedList l).getD (l.length / 2) 0
  else ((sortedList l).getD (l.length / 2 - 1) 0 + (sortedList l).getD (l.length / 2) 0) / 2

/-- `np.std`: population standard deviation. -/
def npStd (l : List ℝ) : ℝ :=
  Real.sqrt ((l.map fun x => (x - npMean l) ^ 2).sum / l.length)

/-- The per-operator summary statistics record built on lines 143-150. -/
structure OperatorStats where
  mean : ℝ
  median : ℝ
  std : ℝ
  min : ℝ
  max : ℝ
  count : ℕ

/-- The statistics dictionary entry of lines 143-150. -/
def mkStats (l : List ℝ) : OperatorStats :=
  ⟨npMean l, npMedian l, npStd l, npMin l, npMax l, l.length⟩

/-- The `if distances:` guard of line 142 together with the statistics
construction: no statistics are produced for an empty distance list. -/
def aggregateStep (l : List ℝ) : Option OperatorStats :=
  if l = [] then none else some (mkStats l)

/-- `calculate_operator_distances` (lines 126-152), consuming the table after
the pandas group-by: operators with fewer than 2 points are skipped, the rest
go through the engine and the aggregation guard. -/
def calculate_operator_distances (grouped : List (String × List (ℝ × ℝ))) :
    List (String × OperatorStats) :=
  grouped.filterMap fun g =>
    if g.2.length < 2 then none
    else (aggregateStep (process_operator_chunk (g.2, g.2.length))).map fun s => (g.1, s)

/-- Haversine in the NaN model: numpy propagates a NaN operand (`none`)
through radians, trigonometry and arithmetic to a NaN result. -/
def haversineF (p q : Option ℝ × Option ℝ) : Option ℝ :=
  match p, q with
  | (some lat1, some lon1), (some lat2, some lon2) =>
      some (haversine_distance lat1 lon1 lat2 lon2)
  | _, _ => none

/-- Binary minimum in the NaN model over `inf`-capable values: `np.min`
propagates NaN (`none`). -/
def minNF (a b : Option (WithTop ℝ)) : Option (WithTop ℝ) :=
  match a, b with
  | some x, some y => some (min x y)
  | _, _ => none

/-- The loop body of `process_operator_chunk` in the NaN model: distance
vector for point `i`, self entry overwritten by `inf`, reduced by `np.min`. -/
def pointMinF (coords : List (Option ℝ × Option ℝ)) (i : ℕ) : Option (WithTop ℝ) :=
  ((coords.map fun q =>
      (haversineF (coords.getD i (none, none)) q).map fun d => ((d : ℝ) : WithTop ℝ)).set i
    (some ⊤)).foldr minNF (some ⊤)

/-- `process_operator_chunk` in the NaN model.  The appended per-point values
live in `Option ℝ` with `none` = NaN: a NaN minimum passes the
`min_dist != np.inf` test of line 121 (NaN compares unequal to `inf`) and is
appended. -/
def process_operator_chunkF (args : List (Option ℝ × Option ℝ) × ℕ) : List (Option ℝ) :=
  (List.range args.1.length).filterMap fun i =>
    if pointMinF args.1 i = some ⊤ then none
    else some ((pointMinF args.1 i).map (WithTop.untop' 0))

/-- Addition in the NaN model. -/
def optAdd (a b : Option ℝ) : Option ℝ := a.bind fun x => b.map fun y => x + y

/-- Subtraction in the NaN model. -/
def optSub (a b : Option ℝ) : Option ℝ := a.bind fun x => b.map fun y => x - y

/-- Multiplication in the NaN model. -/
def optMul (a b : Option ℝ) : Option ℝ := a.bind fun x => b.map fun y => x * y

/-- Division in the NaN model. -/
def optDiv (a b : Option ℝ) : Option ℝ := a.bind fun x => b.map fun y => x / y

/-- Binary minimum in the NaN model. -/
def optMin2 (a b : Option ℝ) : Option ℝ := a.bind fun x => b.map fun y => min x y

/-- Binary maximum in the NaN model. -/
def optMax2 (a b : Option ℝ) : Option ℝ := a.bind fun x => b.map fun y => max x y

/-- Sum in the NaN model: any NaN summand makes the sum NaN. -/
def sumF (l : List (Option ℝ)) : Option ℝ := l.foldr optAdd (some 0)

/-- `np.mean` in the NaN model. -/
def meanF (l : List (Option ℝ)) : Option ℝ := optDiv (sumF l) (some (l.length : ℝ))

/-- `np.min` in the NaN model: NaN propagates through the reduction. -/
def npMinF (l : List (Option ℝ)) : Option ℝ :=
  match l with
  | [] => none
  | a :: t => t.foldl optMin2 a

/-- `np.max` in the NaN model. -/
def npMaxF (l : List (Option ℝ)) : Option ℝ :=
  match l with
  | [] => none
  | a :: t => t.foldl optMax2 a

/-- `np.median` in the NaN model: numpy's median of an array containing NaN
is NaN; otherwise it is the ordinary median of the values. -/
def medianF (l : List (Option ℝ)) : Option ℝ :=
  if l.all fun v => v.isSome then some (npMedian (l.filterMap id)) else none

/-- `np.std` in the NaN model: mean of squared deviations, then square root,
with NaN propagating through every step. -/
def stdF (l : List (Option ℝ)) : Option ℝ :=
  (optDiv ((l.map fun a => optMul (optSub a (meanF l)) (optSub a (meanF l))).foldr optAdd
    (some 0)) (some (l.length : ℝ))).map Real.sqrt

/-- The per-operator statistics record in the NaN model. -/
structure OperatorStatsF where
  mean : Option ℝ
  median : Option ℝ
  std : Option ℝ
  min : Option ℝ
  max : Option ℝ
  count : ℕ

/-- The statistics dictionary entry of lines 143-150 in the NaN model; note
that `count` is the plain length, counting NaN entries too. -/
def mkStatsF (l : List (Option ℝ)) : OperatorStatsF :=
  ⟨meanF l, medianF l, stdF l, npMinF l, npMaxF l, l.length⟩

/-- The `if distances:` guard plus statistics construction in the NaN model. -/
def aggregateStepF (l : List (Option ℝ)) : Option OperatorStatsF :=
  if l = [] then none else some (mkStatsF l)

/-- `calculate_operator_distances` in the NaN model. -/
def calculate_operator_distancesF (grouped : List (String × List (Option ℝ × Option ℝ))) :
    List (String × OperatorStatsF) :=
  grouped.filterMap fun g =>
    if g.2.length < 2 then none
    else (aggregateStepF (process_operator_chunkF (g.2, g.2.length))).map fun s => (g.1, s)

end

/-! Basic facts about `toRadians` and `arctan2`. -/

theorem toRadians_sub (a b : ℝ) : toRadians a - toRadians b = (a - b) * (Real.pi / 180) := by
  unfold toRadians; ring

theorem toRadians_90 : toRadians 90 = Real.pi / 2 := by
  unfold toRadians; ring

theorem toRadians_neg90 : toRadians (-90) = -(Real.pi / 2) := by
  unfold toRadians; ring

theorem toRadians_le_pi_div_two {x : ℝ} (h : x ≤ 90) : toRadians x ≤ Real.pi / 2 := by
  have hp : (0:ℝ) < Real.pi := Real.pi_pos
  unfold toRadians
  nlinarith

theorem neg_pi_div_two_le_toRadians {x : ℝ} (h : -90 ≤ x) : -(Real.pi / 2) ≤ toRadians x := by
  have hp : (0:ℝ) < Real.pi := Real.pi_pos
  unfold toRadians
  nlinarith

theorem toRadians_lt_pi_div_two {x : ℝ} (h : x < 90) : toRadians x < Real.pi / 2 := by
  have hp : (0:ℝ) < Real.pi := Real.pi_pos
  unfold toRadians
  nlinarith

theorem neg_pi_div_two_lt_toRadians {x : ℝ} (h : -90 < x) : -(Real.pi / 2) < toRadians x := by
  have hp : (0:ℝ) < Real.pi := Real.pi_pos
  unfold toRadians
  nlinarith

theorem toRadians_inj {a b : ℝ} (h : a ≠ b) : toRadians a ≠ toRadians b := by
  intro hc
  apply h
  have hp : Real.pi / 180 ≠ 0 := by positivity
  unfold toRadians at hc
  exact mul_right_cancel₀ hp hc

theorem cos_toRadians_nonneg {x : ℝ} (h1 : -90 ≤ x) (h2 : x ≤ 90) :
    0 ≤ Real.cos (toRadians x) :=
  Real.cos_nonneg_of_neg_pi_div_two_le_of_le (neg_pi_div_two_le_toRadians h1)
    (toRadians_le_pi_div_two h2)

theorem cos_toRadians_pos {x : ℝ} (h1 : -90 < x) (h2 : x < 90) :
    0 < Real.cos (toRadians x) :=
  Real.cos_pos_of_mem_Ioo ⟨neg_pi_div_two_lt_toRadians h1, toRadians_lt_pi_div_two h2⟩

theorem arctan2_pos {y x : ℝ} (hy : 0 < y) (hx : 0 ≤ x) : 0 < arctan2 y x := by
  unfold arctan2
  split_ifs with h1 h2 h3 h4 h5
  · rw [← Real.arctan_zero]
    exact Real.arctan_strictMono (div_pos hy h1)
  · linarith [h2.1]
  · linarith [h3.1]
  · positivity
  · linarith [h5.2]
  · exfalso
    rcases lt_or_eq_of_le hx with hx' | hx'
    · exact h1 hx'
    · exact h4 ⟨hx'.symm, hy⟩

theorem sin_sq_pos_of_ne_zero_of_mem {t : ℝ} (h0 : t ≠ 0) (hl : -Real.pi < t)
    (hu : t < Real.pi) : 0 < Real.sin t ^ 2 := by
  have hs : Real.sin t ≠ 0 := by
    rcases lt_or_gt_of_ne h0 with ht | ht
    · have := Real.sin_pos_of_pos_of_lt_pi (show 0 < -t by linarith) (by linarith)
      rw [Real.sin_neg] at this
      linarith
    · have := Real.sin_pos_of_pos_of_lt_pi ht hu
      linarith
  exact pow_two_pos_of_ne_zero hs

/-! Range, sign and degeneracy facts about the haversine quantities. -/

theorem haversine_a_le_one {lat1 lon1 lat2 lon2 : ℝ} (ha1 : -90 ≤ lat1) (ha2 : lat1 ≤ 90)
    (hb1 : -90 ≤ lat2) (hb2 : lat2 ≤ 90) : haversine_a lat1 lon1 lat2 lon2 ≤ 1 := by
  unfold haversine_a
  have hc1 := cos_toRadians_nonneg ha1 ha2
  have hc2 := cos_toRadians_nonneg hb1 hb2
  have hs1 : Real.sin ((toRadians lon2 - toRadians lon1) / 2) ^ 2 ≤ 1 :=
    Real.sin_sq_le_one _
  have hs0 : 0 ≤ Real.sin ((toRadians lon2 - toRadians lon1) / 2) ^ 2 := sq_nonneg _
  have hpyth := Real.sin_sq_add_cos_sq ((toRadians lat2 - toRadians lat1) / 2)
  have h2u : Real.cos (2 * ((toRadians lat2 - toRadians lat1) / 2)) =
      2 * Real.cos ((toRadians lat2 - toRadians lat1) / 2) ^ 2 - 1 :=
    Real.cos_two_mul _
  have hrw : 2 * ((toRadians lat2 - toRadians lat1) / 2) =
      toRadians lat2 - toRadians lat1 := by ring
  rw [hrw] at h2u
  have hsub := Real.cos_sub (toRadians lat2) (toRadians lat1)
  have hadd := Real.cos_add (toRadians lat2) (toRadians lat1)
  have hle := Real.cos_le_one (toRadians lat2 + toRadians lat1)
  nlinarith [mul_nonneg (mul_nonneg hc1 hc2)
    (show (0:ℝ) ≤ 1 - Real.sin ((toRadians lon2 - toRadians lon1) / 2) ^ 2 by linarith)]

theorem haversine_of_a_eq_zero {lat1 lon1 lat2 lon2 : ℝ}
    (h : haversine_a lat1 lon1 lat2 lon2 = 0) : haversine_distance lat1 lon1 lat2 lon2 = 0 := by
  unfold haversine_distance
  rw [h]
  rw [Real.sqrt_zero, show (1:ℝ) - 0 = 1 by ring, Real.sqrt_one]
  unfold arctan2
  rw [if_pos one_pos]
  rw [zero_div, Real.arctan_zero]
  ring

theorem haversine_self (lat lon : ℝ) : haversine_distance lat lon lat lon = 0 := by
  apply haversine_of_a_eq_zero
  unfold haversine_a
  simp

theorem havPair_eq_zero_of_sameLocation {p q : ℝ × ℝ} (h : sameLocation p q) :
    havPair p q = 0 := by
  unfold havPair
  rcases h with h | h | h | h
  · rw [h]
    exact haversine_self _ _
  · apply haversine_of_a_eq_zero
    unfold haversine_a
    rw [h.1, h.2, toRadians_90, Real.cos_pi_div_two]
    simp
  · apply haversine_of_a_eq_zero
    unfold haversine_a
    rw [h.1, h.2, toRadians_neg90, Real.cos_neg, Real.cos_pi_div_two]
    simp
  · apply haversine_of_a_eq_zero
    unfold haversine_a
    rw [h.1]
    rcases h.2 with h2 | h2
    · have ht : toRadians q.2 - toRadians p.2 = -(2 * Real.pi) := by
        rw [toRadians_sub, show q.2 - p.2 = -360 by linarith]
        ring
      rw [ht, show -(2 * Real.pi) / 2 = -Real.pi by ring, Real.sin_neg, Real.sin_pi]
      simp
    · have ht : toRadians q.2 - toRadians p.2 = 2 * Real.pi := by
        rw [toRadians_sub, show q.2 - p.2 = 360 by linarith]
        ring
      rw [ht, show 2 * Real.pi / 2 = Real.pi by ring, Real.sin_pi]
      simp

theorem havPair_pos {p q : ℝ × ℝ} (hp1 : -90 ≤ p.1) (hp2 : p.1 ≤ 90) (hp3 : -180 ≤ p.2)
    (hp4 : p.2 ≤ 180) (hq1 : -90 ≤ q.1) (hq2 : q.1 ≤ 90) (hq3 : -180 ≤ q.2) (hq4 : q.2 ≤ 180)
    (hns : ¬ sameLocation p q) : 0 < havPair p q := by
  have hpi := Real.pi_pos
  have ha_pos : 0 < haversine_a p.1 p.2 q.1 q.2 := by
    unfold haversine_a
    rcases eq_or_ne p.1 q.1 with hlat | hlat
    · have hpq : p.2 ≠ q.2 := fun hc => hns (Or.inl (Prod.ext_iff.mpr ⟨hlat, hc⟩))
      have h90 : p.1 ≠ 90 := fun hc => hns (Or.inr (Or.inl ⟨hc, hlat.symm.trans hc⟩))
      have hm90 : p.1 ≠ -90 :=
        fun hc => hns (Or.inr (Or.inr (Or.inl ⟨hc, hlat.symm.trans hc⟩)))
      have h360a : p.2 - q.2 ≠ 360 :=
        fun hc => hns (Or.inr (Or.inr (Or.inr ⟨hlat, Or.inl hc⟩)))
      have h360b : q.2 - p.2 ≠ 360 :=
        fun hc => hns (Or.inr (Or.inr (Or.inr ⟨hlat, Or.inr hc⟩)))
      have hc1 : 0 < Real.cos (toRadians p.1) :=
        cos_toRadians_pos (lt_of_le_of_ne hp1 (Ne.symm hm90)) (lt_of_le_of_ne hp2 h90)
      have hc2 : 0 < Real.cos (toRadians q.1) := by rw [← hlat]; exact hc1
      have ht : (toRadians q.2 - toRadians p.2) / 2 = (q.2 - p.2) * (Real.pi / 360) := by
        rw [toRadians_sub]
        ring
      have hgt : -360 < q.2 - p.2 := by
        rcases lt_or_eq_of_le (show (-360:ℝ) ≤ q.2 - p.2 by linarith) with h | h
        · exact h
        · exact absurd (by linarith : p.2 - q.2 = 360) h360a
      have hlt : q.2 - p.2 < 360 := by
        rcases lt_or_eq_of_le (show q.2 - p.2 ≤ (360:ℝ) by linarith) with h | h
        · exact h
        · exact absurd h h360b
      have hd0 : q.2 - p.2 ≠ 0 := sub_ne_zero.mpr (Ne.symm hpq)
      have hs : 0 < Real.sin ((toRadians q.2 - toRadians p.2) / 2) ^ 2 := by
        apply sin_sq_pos_of_ne_zero_of_mem
        · rw [ht]
          exact mul_ne_zero hd0 (by positivity)
        · rw [ht]
          nlinarith
        · rw [ht]
          nlinarith
      have hprod := mul_pos (mul_pos hc1 hc2) hs
      have hsq := sq_nonneg (Real.sin ((toRadians q.1 - toRadians p.1) / 2))
      linarith
    · have hu0 : (toRadians q.1 - toRadians p.1) / 2 ≠ 0 := by
        have := toRadians_inj hlat
        intro hc
        apply this
        have : toRadians q.1 - toRadians p.1 = 0 := by linarith
        linarith [sub_eq_zero.mp this]
      have hb1 := neg_pi_div_two_le_toRadians hp1
      have hb2 := toRadians_le_pi_div_two hp2
      have hb3 := neg_pi_div_two_le_toRadians hq1
      have hb4 := toRadians_le_pi_div_two hq2
      have hs : 0 < Real.sin ((toRadians q.1 - toRadians p.1) / 2) ^ 2 := by
        apply sin_sq_pos_of_ne_zero_of_mem hu0
        · linarith
        · linarith
      have hprod := mul_nonneg (mul_nonneg (cos_toRadians_nonneg hp1 hp2)
        (cos_toRadians_nonneg hq1 hq2))
        (sq_nonneg (Real.sin ((toRadians q.2 - toRadians p.2) / 2)))
      linarith
  have ha1 : haversine_a p.1 p.2 q.1 q.2 ≤ 1 := haversine_a_le_one hp1 hp2 hq1 hq2
  unfold havPair haversine_distance
  have h1 : 0 < Real.sqrt (haversine_a p.1 p.2 q.1 q.2) := Real.sqrt_pos.mpr ha_pos
  have h2 : 0 ≤ Real.sqrt (1 - haversine_a p.1 p.2 q.1 q.2) := Real.sqrt_nonneg _
  have h3 := arctan2_pos h1 h2
  positivity

/-! List-level facts about folded minima over `WithTop ℝ`, the masking of the
self entry, and index bookkeeping. -/

theorem foldr_min_le {L : List (WithTop ℝ)} {x : WithTop ℝ} (hx : x ∈ L) :
    L.foldr min ⊤ ≤ x := by
  induction L with
  | nil => cases hx
  | cons a t ih =>
    rcases List.mem_cons.mp hx with h | h
    · rw [h, List.foldr_cons]
      exact min_le_left _ _
    · exact le_trans (min_le_right _ _) (ih h)

theorem foldr_min_mem_or_top (L : List (WithTop ℝ)) :
    L.foldr min ⊤ = ⊤ ∨ L.foldr min ⊤ ∈ L := by
  induction L with
  | nil => exact Or.inl rfl
  | cons a t ih =>
    rcases min_choice a (t.foldr min ⊤) with h | h
    · right
      rw [List.foldr_cons, h]
      exact List.mem_cons_self _ _
    · rcases ih with h2 | h2
      · left
        rw [List.foldr_cons, h, h2]
      · right
        rw [List.foldr_cons, h]
        exact List.mem_cons_of_mem _ h2

theorem foldr_min_append (L1 L2 : List (WithTop ℝ)) :
    (L1 ++ L2).foldr min ⊤ = min (L1.foldr min ⊤) (L2.foldr min ⊤) := by
  induction L1 with
  | nil =>
    rw [List.nil_append, List.foldr_nil, min_eq_right le_top]
  | cons a t ih =>
    rw [List.cons_append, List.foldr_cons, List.foldr_cons, ih, min_assoc]

theorem foldr_min_set_top {L : List (WithTop ℝ)} {i : ℕ} (hi : i < L.length) :
    (L.set i ⊤).foldr min ⊤ = (L.eraseIdx i).foldr min ⊤ := by
  induction L generalizing i with
  | nil => simp at hi
  | cons a t ih =>
    cases i with
    | zero =>
      rw [List.set_cons_zero, List.eraseIdx_zero, List.foldr_cons, List.tail_cons,
        min_eq_right le_top]
    | succ n =>
      have hn : n < t.length := by simpa using hi
      rw [List.set_cons_succ, List.foldr_cons, ih hn]
      rfl

theorem map_range_getD {α : Type} (L : List α) (d : α) :
    (List.range L.length).map (fun j => L.getD j d) = L := by
  induction L with
  | nil => rfl
  | cons a t ih =>
    rw [List.length_cons, List.range_succ_eq_map, List.map_cons, List.map_map]
    have h : (List.range t.length).map ((fun j => (a :: t).getD j d) ∘ Nat.succ)
        = (List.range t.length).map (fun j => t.getD j d) := by
      apply List.map_congr_left
      intro j _
      rfl
    rw [h, ih]
    rfl

theorem eraseIdx_map {α β : Type} (f : α → β) (L : List α) (i : ℕ) :
    (L.map f).eraseIdx i = (L.eraseIdx i).map f := by
  induction L generalizing i with
  | nil => rfl
  | cons a t ih =>
    cases i with
    | zero => rfl
    | succ n =>
      rw [List.map_cons, List.eraseIdx_cons_succ, List.eraseIdx_cons_succ, List.map_cons,
        ih]

theorem range_eraseIdx {i n : ℕ} (hi : i < n) :
    (List.range n).eraseIdx i = othersIdx i n := by
  unfold othersIdx
  induction n with
  | zero => cases hi
  | succ m ih =>
    rw [List.range_succ, List.filter_append]
    rcases Nat.lt_succ_iff_lt_or_eq.mp hi with h | h
    · rw [List.eraseIdx_append_of_lt_length (by simpa using h), ih h]
      congr 1
      have : m ≠ i := Nat.ne_of_gt h
      simp [this]
    · subst h
      rw [List.eraseIdx_append_of_length_le (by simp)]
      have h1 : (List.range i).filter (fun j => decide (j ≠ i)) = List.range i := by
        rw [List.filter_eq_self]
        intro a ha
        simpa using Nat.ne_of_lt (List.mem_range.mp ha)
      have h2 : [i].filter (fun j => decide (j ≠ i)) = [] := by simp
      rw [h1, h2, List.append_nil]
      simp

theorem map_eq_map_range {α β : Type} (f : α → β) (L : List α) (d : α) :
    L.map f = (List.range L.length).map fun j => f (L.getD j d) := by
  conv_lhs => rw [← map_range_getD L d]
  rw [List.map_map]
  rfl

theorem othersIdx_mem {j i n : ℕ} : j ∈ othersIdx i n ↔ j < n ∧ j ≠ i := by
  unfold othersIdx
  simp [List.mem_filter, List.mem_range]

theorem pointMin_eq_others {coords : List (ℝ × ℝ)} {i : ℕ} (hi : i < coords.length) :
    pointMin coords i = chunkMin coords i (othersIdx i coords.length) := by
  unfold pointMin chunkMin
  rw [foldr_min_set_top (by simpa using hi)]
  rw [map_eq_map_range
    (fun q => ((havPair (coords.getD i (0, 0)) q : ℝ) : WithTop ℝ)) coords (0, 0)]
  rw [eraseIdx_map, range_eraseIdx hi]

theorem othersIdx_pick {i n : ℕ} (hi : i < n) (hn : 2 ≤ n) :
    (if i = 0 then 1 else 0) ∈ othersIdx i n := by
  rw [othersIdx_mem]
  by_cases h : i = 0
  · rw [if_pos h]
    exact ⟨hn, by rw [h]; exact one_ne_zero⟩
  · rw [if_neg h]
    exact ⟨by omega, Ne.symm h⟩

theorem pointMin_ne_top {coords : List (ℝ × ℝ)} (hn : 2 ≤ coords.length) {i : ℕ}
    (hi : i < coords.length) : pointMin coords i ≠ ⊤ := by
  rw [pointMin_eq_others hi]
  unfold chunkMin
  have hj0 := othersIdx_pick hi hn
  have hmem := List.mem_map_of_mem
    (fun j => ((havPair (coords.getD i (0, 0)) (coords.getD j (0, 0)) : ℝ) : WithTop ℝ)) hj0
  have hle := foldr_min_le hmem
  intro hc
  rw [hc, top_le_iff] at hle
  exact WithTop.coe_ne_top hle

theorem filterMap_eq_map_of_forall {α β : Type} (l : List α) (f : α → Option β) (g : α → β)
    (h : ∀ x ∈ l, f x = some (g x)) : l.filterMap f = l.map g := by
  induction l with
  | nil => rfl
  | cons a t ih =>
    rw [List.filterMap_cons, h a (List.mem_cons_self _ _), List.map_cons,
      ih fun x hx => h x (List.mem_cons_of_mem _ hx)]

theorem process_eq_map {coords : List (ℝ × ℝ)} (hn : 2 ≤ coords.length) (cs : ℕ) :
    process_operator_chunk (coords, cs) =
      (List.range coords.length).map fun i => (pointMin coords i).untop' 0 := by
  unfold process_operator_chunk
  apply filterMap_eq_map_of_forall
  intro i hi
  rw [if_neg (pointMin_ne_top hn (List.mem_range.mp hi))]

theorem process_length {coords : List (ℝ × ℝ)} (hn : 2 ≤ coords.length) (cs : ℕ) :
    (process_operator_chunk (coords, cs)).length = coords.length := by
  rw [process_eq_map hn cs, List.length_map, List.length_range]

theorem process_getD {coords : List (ℝ × ℝ)} (hn : 2 ≤ coords.length) (cs : ℕ) {i : ℕ}
    (hi : i < coords.length) :
    (process_operator_chunk (coords, cs)).getD i 0 = (pointMin coords i).untop' 0 := by
  rw [process_eq_map hn cs]
  rw [List.getD_eq_getElem _ _ (by simpa using hi), List.getElem_map, List.getElem_range]

theorem pointMin_isLeast {coords : List (ℝ × ℝ)} (hn : 2 ≤ coords.length) {i : ℕ}
    (hi : i < coords.length) :
    pointMin coords i = (((pointMin coords i).untop' 0 : ℝ) : WithTop ℝ) ∧
      IsLeast {x : ℝ | ∃ j, j < coords.length ∧ j ≠ i ∧
        x = havPair (coords.getD i (0, 0)) (coords.getD j (0, 0))}
        ((pointMin coords i).untop' 0) := by
  obtain ⟨v, hv⟩ := WithTop.ne_top_iff_exists.mp (pointMin_ne_top hn hi)
  have huntop : (pointMin coords i).untop' 0 = v := by
    rw [← hv]
    rfl
  have hfold : pointMin coords i = chunkMin coords i (othersIdx i coords.length) :=
    pointMin_eq_others hi
  constructor
  · rw [huntop, ← hv]
  constructor
  · -- membership: the folded minimum is attained at some other index
    rcases foldr_min_mem_or_top ((othersIdx i coords.length).map
        fun j => ((havPair (coords.getD i (0, 0)) (coords.getD j (0, 0)) : ℝ) : WithTop ℝ))
      with h | h
    · exfalso
      apply pointMin_ne_top hn hi
      rw [hfold]
      exact h
    · rcases List.mem_map.mp h with ⟨j, hj, hjeq⟩
      rcases othersIdx_mem.mp hj with ⟨hjn, hji⟩
      refine ⟨j, hjn, hji, ?_⟩
      have : (↑(havPair (coords.getD i (0, 0)) (coords.getD j (0, 0))) : WithTop ℝ) = ↑v := by
        rw [hjeq]
        unfold chunkMin at hfold
        rw [← hfold, hv]
      rw [huntop]
      exact (WithTop.coe_inj.mp this).symm
  · -- lower bound
    intro x hx
    rcases hx with ⟨j, hjn, hji, hxeq⟩
    have hmem := List.mem_map_of_mem
      (fun j => ((havPair (coords.getD i (0, 0)) (coords.getD j (0, 0)) : ℝ) : WithTop ℝ))
      (othersIdx_mem.mpr ⟨hjn, hji⟩)
    have hle := foldr_min_le hmem
    unfold chunkMin at hfold
    have hle2 : ((v : ℝ) : WithTop ℝ) ≤
        ((havPair (coords.getD i (0, 0)) (coords.getD j (0, 0)) : ℝ) : WithTop ℝ) := by
      rw [hv, hfold]
      exact hle
    rw [huntop, hxeq]
    exact WithTop.coe_le_coe.mp hle2

theorem chunkedMin_flatten (coords : List (ℝ × ℝ)) (i : ℕ) (parts : List (List ℕ)) :
    chunkedMin coords i parts = chunkMin coords i parts.flatten := by
  unfold chunkedMin
  induction parts with
  | nil => rfl
  | cons p ps ih =>
    rw [List.map_cons, List.foldr_cons, ih]
    unfold chunkMin
    rw [List.flatten_cons, List.map_append, foldr_min_append]

theorem process_small {coords : List (ℝ × ℝ)} (h : coords.length < 2) (cs : ℕ) :
    process_operator_chunk (coords, cs) = [] := by
  match coords, h with
  | [], _ => rfl
  | [p], _ =>
    have hpm : pointMin [p] 0 = ⊤ := by
      unfold pointMin
      simp
    unfold process_operator_chunk
    simp [hpm]

/-! Facts about the `np.min` / `np.max` / `np.mean` / `np.median` models. -/

theorem foldl_min_le_init (t : List ℝ) (a : ℝ) : t.foldl min a ≤ a := by
  induction t generalizing a with
  | nil => exact le_refl a
  | cons b t ih => exact le_trans (ih (min a b)) (min_le_left _ _)

theorem foldl_min_le_mem {t : List ℝ} {x : ℝ} (a : ℝ) (hx : x ∈ t) : t.foldl min a ≤ x := by
  induction t generalizing a with
  | nil => cases hx
  | cons b t ih =>
    rcases List.mem_cons.mp hx with h | h
    · rw [h]
      exact le_trans (foldl_min_le_init t (min a b)) (min_le_right a b)
    · exact ih (min a b) h

theorem foldl_min_mem (t : List ℝ) (a : ℝ) : t.foldl min a ∈ a :: t := by
  induction t generalizing a with
  | nil => exact List.mem_singleton.mpr rfl
  | cons b t ih =>
    rcases List.mem_cons.mp (ih (min a b)) with h | h
    · rcases min_choice a b with hm | hm
      · exact List.mem_cons.mpr (Or.inl (h.trans hm))
      · exact List.mem_cons.mpr (Or.inr (List.mem_cons.mpr (Or.inl (h.trans hm))))
    · exact List.mem_cons.mpr (Or.inr (List.mem_cons.mpr (Or.inr h)))

theorem foldl_max_ge_init (t : List ℝ) (a : ℝ) : a ≤ t.foldl max a := by
  induction t generalizing a with
  | nil => exact le_refl a
  | cons b t ih => exact le_trans (le_max_left _ _) (ih (max a b))

theorem foldl_max_ge_mem {t : List ℝ} {x : ℝ} (a : ℝ) (hx : x ∈ t) : x ≤ t.foldl max a := by
  induction t generalizing a with
  | nil => cases hx
  | cons b t ih =>
    rcases List.mem_cons.mp hx with h | h
    · rw [h]
      exact le_trans (le_max_right a b) (foldl_max_ge_init t (max a b))
    · exact ih (max a b) h

theorem foldl_max_mem (t : List ℝ) (a : ℝ) : t.foldl max a ∈ a :: t := by
  induction t generalizing a with
  | nil => exact List.mem_singleton.mpr rfl
  | cons b t ih =>
    rcases List.mem_cons.mp (ih (max a b)) with h | h
    · rcases max_choice a b with hm | hm
      · exact List.mem_cons.mpr (Or.inl (h.trans hm))
      · exact List.mem_cons.mpr (Or.inr (List.mem_cons.mpr (Or.inl (h.trans hm))))
    · exact List.mem_cons.mpr (Or.inr (List.mem_cons.mpr (Or.inr h)))

theorem npMin_le_mem {l : List ℝ} {x : ℝ} (hx : x ∈ l) : npMin l ≤ x := by
  match l, hx with
  | a :: t, hx =>
    unfold npMin
    rcases List.mem_cons.mp hx with h | h
    · rw [h]
      exact foldl_min_le_init t a
    · exact foldl_min_le_mem a h

theorem npMin_mem {l : List ℝ} (h : l ≠ []) : npMin l ∈ l := by
  match l, h with
  | a :: t, _ =>
    unfold npMin
    exact foldl_min_mem t a

theorem npMax_ge_mem {l : List ℝ} {x : ℝ} (hx : x ∈ l) : x ≤ npMax l := by
  match l, hx with
  | a :: t, hx =>
    unfold npMax
    rcases List.mem_cons.mp hx with h | h
    · rw [h]
      exact foldl_max_ge_init t a
    · exact foldl_max_ge_mem a h

theorem npMean_bounds {l : List ℝ} (h : l ≠ []) :
    npMin l ≤ npMean l ∧ npMean l ≤ npMax l := by
  have hlen : 0 < l.length := List.length_pos.mpr h
  have hlenR : (0:ℝ) < (l.length : ℝ) := by exact_mod_cast hlen
  have hsum_le : l.sum ≤ l.length • npMax l :=
    List.sum_le_card_nsmul l (npMax l) fun x hx => npMax_ge_mem hx
  have hle_sum : l.length • npMin l ≤ l.sum :=
    List.card_nsmul_le_sum l (npMin l) fun x hx => npMin_le_mem hx
  rw [nsmul_eq_mul] at hsum_le hle_sum
  unfold npMean
  constructor
  · rw [le_div_iff hlenR]
    linarith
  · rw [div_le_iff hlenR]
    linarith

theorem sortedList_mem {l : List ℝ} {x : ℝ} (hx : x ∈ sortedList l) : x ∈ l := by
  unfold sortedList at hx
  exact (List.mergeSort_perm l _).mem_iff.mp hx

theorem sortedList_length (l : List ℝ) : (sortedList l).length = l.length := by
  unfold sortedList
  exact (List.mergeSort_perm l _).length_eq

theorem npMedian_bounds {l : List ℝ} (h : l ≠ []) :
    npMin l ≤ npMedian l ∧ npMedian l ≤ npMax l := by
  have hlen : 0 < l.length := List.length_pos.mpr h
  unfold npMedian
  split_ifs with hodd
  · have hlt : l.length / 2 < (sortedList l).length := by
      rw [sortedList_length]
      omega
    have hmem : (sortedList l).getD (l.length / 2) 0 ∈ l := by
      rw [List.getD_eq_getElem _ _ hlt]
      exact sortedList_mem (List.getElem_mem hlt)
    exact ⟨npMin_le_mem hmem, npMax_ge_mem hmem⟩
  · have h2 : 2 ≤ l.length := by omega
    have hlt1 : l.length / 2 - 1 < (sortedList l).length := by
      rw [sortedList_length]
      omega
    have hlt2 : l.length / 2 < (sortedList l).length := by
      rw [sortedList_length]
      omega
    have hm1 : (sortedList l).getD (l.length / 2 - 1) 0 ∈ l := by
      rw [List.getD_eq_getElem _ _ hlt1]
      exact sortedList_mem (List.getElem_mem hlt1)
    have hm2 : (sortedList l).getD (l.length / 2) 0 ∈ l := by
      rw [List.getD_eq_getElem _ _ hlt2]
      exact sortedList_mem (List.getElem_mem hlt2)
    constructor
    · have hb1 := npMin_le_mem hm1
      have hb2 := npMin_le_mem hm2
      linarith
    · have hb1 := npMax_ge_mem hm1
      have hb2 := npMax_ge_mem hm2
      linarith

theorem key_unique {β : Type} {grouped : List (String × β)} {op : String} {d1 d2 : β}
    (hnd : (grouped.map Prod.fst).Nodup) (h1 : (op, d1) ∈ grouped)
    (h2 : (op, d2) ∈ grouped) : d1 = d2 := by
  induction grouped with
  | nil => cases h1
  | cons a t ih =>
    rw [List.map_cons, List.nodup_cons] at hnd
    rcases List.mem_cons.mp h1 with e1 | m1
    · rcases List.mem_cons.mp h2 with e2 | m2
      · have he : (op, d1) = (op, d2) := e1.trans e2.symm
        exact congrArg Prod.snd he
      · exfalso
        apply hnd.1
        have hm : op ∈ List.map Prod.fst t := List.mem_map_of_mem Prod.fst m2
        rw [← e1]
        exact hm
    · rcases List.mem_cons.mp h2 with e2 | m2
      · exfalso
        apply hnd.1
        have hm : op ∈ List.map Prod.fst t := List.mem_map_of_mem Prod.fst m1
        rw [← e2]
        exact hm
      · exact ih hnd.2 m1 m2

theorem aggregateStep_nil : aggregateStep [] = none := by
  unfold aggregateStep
  rw [if_pos rfl]

theorem calc_not_mem {grouped : List (String × List (ℝ × ℝ))} {op : String}
    {data : List (ℝ × ℝ)} (hnd : (grouped.map Prod.fst).Nodup) (hmem : (op, data) ∈ grouped)
    (hskip : data.length < 2 ∨
      aggregateStep (process_operator_chunk (data, data.length)) = none)
    (s : OperatorStats) : (op, s) ∉ calculate_operator_distances grouped := by
  intro hs
  unfold calculate_operator_distances at hs
  rcases List.mem_filterMap.mp hs with ⟨g, hg, hfg⟩
  by_cases hlen : g.2.length < 2
  · rw [if_pos hlen] at hfg
    cases hfg
  · rw [if_neg hlen] at hfg
    rcases Option.map_eq_some'.mp hfg with ⟨st, hst, heq⟩
    have hop : g.1 = op := congrArg Prod.fst heq
    have hgmem : (op, g.2) ∈ grouped := by
      have hgeq : g = (op, g.2) := by
        rw [← hop]
      rw [← hgeq]
      exact hg
    have hgdata : g.2 = data := key_unique hnd hgmem hmem
    rcases hskip with h | h
    · rw [hgdata] at hlen
      exact hlen h
    · rw [hgdata, h] at hst
      cases hst

/-! The claims. -/

/-- C1: for every operator point set of size at least 2, the engine's emitted
value for each point `i` is exactly the minimum, over every other point
`j ≠ i` of the same set, of the haversine distance between `i` and `j` — the
self-pair entry having been masked to infinity before the minimum, so the
self-distance is never returned. -/
theorem c1_per_point_min_over_others (coords : List (ℝ × ℝ)) (cs : ℕ)
    (hN : 2 ≤ coords.length) (i : ℕ) (hi : i < coords.length) :
    IsLeast {x : ℝ | ∃ j, j < coords.length ∧ j ≠ i ∧
      x = havPair (coords.getD i (0, 0)) (coords.getD j (0, 0))}
      ((process_operator_chunk (coords, cs)).getD i 0) := by
  rw [process_getD hN cs hi]
  exact (pointMin_isLeast hN hi).2

theorem c1_witness :
    IsLeast {x : ℝ | ∃ j, j < ([((0:ℝ), (0:ℝ)), (0, 1)] : List (ℝ × ℝ)).length ∧ j ≠ 0 ∧
      x = havPair (([((0:ℝ), (0:ℝ)), (0, 1)] : List (ℝ × ℝ)).getD 0 (0, 0))
        (([((0:ℝ), (0:ℝ)), (0, 1)] : List (ℝ × ℝ)).getD j (0, 0))}
      ((process_operator_chunk (([((0:ℝ), (0:ℝ)), (0, 1)] : List (ℝ × ℝ)), 7)).getD 0 0) :=
  c1_per_point_min_over_others [((0:ℝ), (0:ℝ)), (0, 1)] 7 (by norm_num) 0 (by norm_num)

/-- C4: partition-invariance — splitting the other points of a set into
chunks, computing per-chunk minima for a point, and then taking that point's
minimum across all chunks covering all other points, yields exactly the
single-pass per-point minimum; the result is independent of chunk
boundaries. -/
theorem c4_partition_invariance (coords : List (ℝ × ℝ)) (i : ℕ) (hi : i < coords.length)
    (parts : List (List ℕ)) (hcover : parts.flatten = othersIdx i coords.length) :
    chunkedMin coords i parts = pointMin coords i := by
  rw [chunkedMin_flatten, hcover, pointMin_eq_others hi]

theorem c4_witness :
    chunkedMin [((0:ℝ), (0:ℝ)), (0, 1)] 0 [[1]] = pointMin [((0:ℝ), (0:ℝ)), (0, 1)] 0 :=
  c4_partition_invariance [((0:ℝ), (0:ℝ)), (0, 1)] 0 (by norm_num) [[1]] (by decide)

/-- C9: the distance from any point to itself — equivalently between any two
coincident points — is exactly 0, and the checked evaluation yields
`some 0`, not a NaN. -/
theorem c9_self_distance_exact_zero (lat lon : ℝ) :
    haversine_distance lat lon lat lon = 0 ∧ haversineChecked lat lon lat lon = some 0 := by
  refine ⟨haversine_self lat lon, ?_⟩
  have ha : haversine_a lat lon lat lon = 0 := by
    unfold haversine_a
    simp
  have h1 : checkedSqrt (0:ℝ) = some 0 := by
    unfold checkedSqrt
    rw [if_pos (le_refl 0), Real.sqrt_zero]
  have h2 : checkedSqrt ((1:ℝ) - 0) = some 1 := by
    unfold checkedSqrt
    rw [if_pos (by norm_num), show (1:ℝ) - 0 = 1 by ring, Real.sqrt_one]
  unfold haversineChecked
  rw [ha, h1, h2]
  show some (6371 * (2 * arctan2 0 1)) = some 0
  rw [show arctan2 0 1 = 0 from by
    unfold arctan2
    rw [if_pos one_pos, zero_div, Real.arctan_zero]]
  norm_num

/-- C10: the `chunk_size` component of the argument of
`process_operator_chunk` has no influence on its result: the function
iterates over every point regardless of it. -/
theorem c10_chunk_size_noninterference (data : List (ℝ × ℝ)) (c1 c2 : ℕ) :
    process_operator_chunk (data, c1) = process_operator_chunk (data, c2) := rfl

/-- C6: an operator whose point set has fewer than 2 points produces zero
distance values (the engine returns the empty list for any chunk size) and
is absent from the statistics mapping. -/
theorem c6_small_set_skipped (grouped : List (String × List (ℝ × ℝ))) (op : String)
    (data : List (ℝ × ℝ)) (hnd : (grouped.map Prod.fst).Nodup)
    (hmem : (op, data) ∈ grouped) (hlt : data.length < 2) :
    (∀ cs, process_operator_chunk (data, cs) = []) ∧
      ∀ s, (op, s) ∉ calculate_operator_distances grouped :=
  ⟨fun cs => process_small hlt cs, fun s => calc_not_mem hnd hmem (Or.inl hlt) s⟩

theorem c6_witness :
    process_operator_chunk ([((3:ℝ), (4:ℝ))], 99) = [] ∧
      ("Orange", (⟨0, 0, 0, 0, 0, 0⟩ : OperatorStats)) ∉
        calculate_operator_distances [("Orange", [((3:ℝ), (4:ℝ))])] := by
  have h := c6_small_set_skipped [("Orange", [((3:ℝ), (4:ℝ))])] "Orange" [((3:ℝ), (4:ℝ))]
    (by simp) (by simp) (by norm_num)
  exact ⟨h.1 99, h.2 ⟨0, 0, 0, 0, 0, 0⟩⟩

/-- C7: for every non-empty distance list, the aggregated statistics satisfy
`min ≤ median ≤ max` and `min ≤ mean ≤ max`, and the reported count equals
the length of the input list. -/
theorem c7_stats_order (l : List ℝ) (h : l ≠ []) :
    (mkStats l).min ≤ (mkStats l).median ∧ (mkStats l).median ≤ (mkStats l).max ∧
      (mkStats l).min ≤ (mkStats l).mean ∧ (mkStats l).mean ≤ (mkStats l).max ∧
      (mkStats l).count = l.length := by
  have h1 := npMedian_bounds h
  have h2 := npMean_bounds h
  exact ⟨h1.1, h1.2, h2.1, h2.2, rfl⟩

theorem c7_witness :
    (mkStats [1, 2]).min ≤ (mkStats [1, 2]).median ∧
      (mkStats [1, 2]).median ≤ (mkStats [1, 2]).max ∧
      (mkStats [1, 2]).min ≤ (mkStats [1, 2]).mean ∧
      (mkStats [1, 2]).mean ≤ (mkStats [1, 2]).max ∧
      (mkStats [1, 2]).count = ([1, 2] : List ℝ).length :=
  c7_stats_order [1, 2] (by simp)

/-- C8: aggregation of an empty distance list fails explicitly — it produces
no statistics record, and the corresponding operator gets no entry in the
output mapping rather than zero-valued statistics. -/
theorem c8_empty_distances_no_stats (grouped : List (String × List (ℝ × ℝ))) (op : String)
    (data : List (ℝ × ℝ)) (hnd : (grouped.map Prod.fst).Nodup)
    (hmem : (op, data) ∈ grouped)
    (hempty : process_operator_chunk (data, data.length) = []) :
    aggregateStep (process_operator_chunk (data, data.length)) = none ∧
      ∀ s, (op, s) ∉ calculate_operator_distances grouped := by
  constructor
  · rw [hempty]
    exact aggregateStep_nil
  · intro s
    apply calc_not_mem hnd hmem
    · right
      rw [hempty]
      exact aggregateStep_nil

theorem c8_witness :
    aggregateStep (process_operator_chunk ([((1:ℝ), (2:ℝ))], [((1:ℝ), (2:ℝ))].length)) =
        none ∧
      ("Free", (⟨0, 0, 0, 0, 0, 0⟩ : OperatorStats)) ∉
        calculate_operator_distances [("Free", [((1:ℝ), (2:ℝ))])] := by
  have h := c8_empty_distances_no_stats [("Free", [((1:ℝ), (2:ℝ))])] "Free" [((1:ℝ), (2:ℝ))]
    (by simp) (by simp) (process_small (by norm_num) _)
  exact ⟨h.1, h.2 ⟨0, 0, 0, 0, 0, 0⟩⟩

/-! NaN-propagation facts for the F model. -/

theorem minNF_none_left (b : Option (WithTop ℝ)) : minNF none b = none := by
  cases b <;> rfl

theorem minNF_none_right (a : Option (WithTop ℝ)) : minNF a none = none := by
  cases a <;> rfl

theorem foldr_minNF_none_mem {L : List (Option (WithTop ℝ))}
    (h : (none : Option (WithTop ℝ)) ∈ L) (init : Option (WithTop ℝ)) :
    L.foldr minNF init = none := by
  induction L with
  | nil => cases h
  | cons a t ih =>
    rw [List.foldr_cons]
    rcases List.mem_cons.mp h with h1 | h1
    · rw [← h1]
      exact minNF_none_left _
    · rw [ih h1]
      exact minNF_none_right a

theorem haversineF_none {p q : Option ℝ × Option ℝ}
    (h : p.1 = none ∨ p.2 = none ∨ q.1 = none ∨ q.2 = none) : haversineF p q = none := by
  obtain ⟨p1, p2⟩ := p
  obtain ⟨q1, q2⟩ := q
  cases p1 <;> cases p2 <;> cases q1 <;> cases q2 <;> simp_all [haversineF]

theorem pointMinF_none {coords : List (Option ℝ × Option ℝ)} {k : ℕ}
    (hk : k < coords.length)
    (hnan : (coords.getD k (none, none)).1 = none ∨ (coords.getD k (none, none)).2 = none)
    (hN : 2 ≤ coords.length) :
    ∀ j, j < coords.length → pointMinF coords j = none := by
  intro j hj
  unfold pointMinF
  apply foldr_minNF_none_mem
  by_cases hjk : j = k
  · -- point `j` itself has a NaN coordinate: every row entry is NaN, and a
    -- second index survives the self mask
    have hm : ∃ m, m < coords.length ∧ m ≠ j := by
      by_cases h0 : j = 0
      · exact ⟨1, by omega, by omega⟩
      · exact ⟨0, by omega, fun hc => h0 hc.symm⟩
    rcases hm with ⟨m, hmlt, hmj⟩
    have hmlt2 : m < ((coords.map fun q =>
        (haversineF (coords.getD j (none, none)) q).map fun d =>
          ((d : ℝ) : WithTop ℝ)).set j (some ⊤)).length := by
      rw [List.length_set, List.length_map]
      exact hmlt
    have harg : (coords.getD j (none, none)).1 = none ∨
        (coords.getD j (none, none)).2 = none ∨ (coords[m]).1 = none ∨
        (coords[m]).2 = none := by
      rw [hjk]
      rcases hnan with h | h
      · exact Or.inl h
      · exact Or.inr (Or.inl h)
    have hent : ((coords.map fun q =>
        (haversineF (coords.getD j (none, none)) q).map fun d =>
          ((d : ℝ) : WithTop ℝ)).set j (some ⊤))[m] = none := by
      rw [List.getElem_set_ne (fun hc => hmj hc.symm), List.getElem_map,
        haversineF_none harg]
      rfl
    rw [← hent]
    exact List.getElem_mem hmlt2
  · -- some other point has the NaN coordinate; its row entry at index `k`
    -- is NaN and is not overwritten by the self mask
    have hklt2 : k < ((coords.map fun q =>
        (haversineF (coords.getD j (none, none)) q).map fun d =>
          ((d : ℝ) : WithTop ℝ)).set j (some ⊤)).length := by
      rw [List.length_set, List.length_map]
      exact hk
    have harg : (coords.getD j (none, none)).1 = none ∨
        (coords.getD j (none, none)).2 = none ∨ (coords[k]).1 = none ∨
        (coords[k]).2 = none := by
      have hcoordk : coords[k] = coords.getD k (none, none) :=
        (List.getD_eq_getElem _ _ hk).symm
      rw [hcoordk]
      rcases hnan with h | h
      · exact Or.inr (Or.inr (Or.inl h))
      · exact Or.inr (Or.inr (Or.inr h))
    have hent : ((coords.map fun q =>
        (haversineF (coords.getD j (none, none)) q).map fun d =>
          ((d : ℝ) : WithTop ℝ)).set j (some ⊤))[k] = none := by
      rw [List.getElem_set_ne hjk, List.getElem_map, haversineF_none harg]
      rfl
    rw [← hent]
    exact List.getElem_mem hklt2

theorem processF_replicate {coords : List (Option ℝ × Option ℝ)}
    (h : ∀ j, j < coords.length → pointMinF coords j = none) (cs : ℕ) :
    process_operator_chunkF (coords, cs) = List.replicate coords.length none := by
  unfold process_operator_chunkF
  rw [filterMap_eq_map_of_forall _ _ (fun _ => (none : Option ℝ))
    (by
      intro i hi
      rw [h i (List.mem_range.mp hi)]
      rw [if_neg (by simp)]
      rfl)]
  rw [List.map_const', List.length_range]

theorem foldl_optMin2_none (t : List (Option ℝ)) : t.foldl optMin2 none = none := by
  induction t with
  | nil => rfl
  | cons a t ih => exact ih

theorem foldl_optMax2_none (t : List (Option ℝ)) : t.foldl optMax2 none = none := by
  induction t with
  | nil => rfl
  | cons a t ih => exact ih

theorem mkStatsF_replicate (m : ℕ) :
    mkStatsF (List.replicate (m + 1) (none : Option ℝ)) =
      ⟨none, none, none, none, none, m + 1⟩ := by
  have hmean : meanF (List.replicate (m + 1) (none : Option ℝ)) = none := by
    rw [List.replicate_succ]
    rfl
  have hmedian : medianF (List.replicate (m + 1) (none : Option ℝ)) = none := by
    rw [List.replicate_succ]
    rfl
  have hstd : stdF (List.replicate (m + 1) (none : Option ℝ)) = none := by
    rw [List.replicate_succ]
    rfl
  have hmin : npMinF (List.replicate (m + 1) (none : Option ℝ)) = none := by
    rw [List.replicate_succ]
    unfold npMinF
    exact foldl_optMin2_none _
  have hmax : npMaxF (List.replicate (m + 1) (none : Option ℝ)) = none := by
    rw [List.replicate_succ]
    unfold npMaxF
    exact foldl_optMax2_none _
  unfold mkStatsF
  rw [hmean, hmedian, hstd, hmin, hmax, List.length_replicate]

theorem aggregateStepF_replicate (m : ℕ) :
    aggregateStepF (List.replicate (m + 1) (none : Option ℝ)) =
      some ⟨none, none, none, none, none, m + 1⟩ := by
  unfold aggregateStepF
  rw [if_neg (by simp), mkStatsF_replicate]

theorem calculateF_single {op : String} {coords : List (Option ℝ × Option ℝ)}
    (hN : 2 ≤ coords.length)
    (hall : process_operator_chunkF (coords, coords.length) =
      List.replicate coords.length none) :
    calculate_operator_distancesF [(op, coords)] =
      [(op, ⟨none, none, none, none, none, coords.length⟩)] := by
  obtain ⟨m, hm⟩ : ∃ m, coords.length = m + 1 := ⟨coords.length - 1, by omega⟩
  unfold calculate_operator_distancesF
  rw [List.filterMap_cons, List.filterMap_nil]
  simp only
  rw [if_neg (by omega : ¬ coords.length < 2)]
  rw [hall, hm, aggregateStepF_replicate]
  simp only [Option.map_some']

/-- C3 counterexample: with the NaN longitude on the first of two points,
both per-point results are NaN, yet the aggregation does not exclude them:
the operator receives a statistics entry whose count is 2 (counting both NaN
results) and whose mean is NaN — the NaN results were aggregated, not
excluded. -/
theorem c3_counterexample :
    process_operator_chunkF ([(some (0:ℝ), (none : Option ℝ)), (some 1, some 1)], 2) =
        [none, none] ∧
      calculate_operator_distancesF
          [("A", [(some (0:ℝ), (none : Option ℝ)), (some 1, some 1)])] =
        [("A", ⟨none, none, none, none, none, 2⟩)] := by
  have hall := @pointMinF_none [(some (0:ℝ), (none : Option ℝ)), (some 1, some 1)] 0
    (by norm_num) (Or.inr rfl) (by norm_num)
  exact ⟨processF_replicate hall 2, calculateF_single (by norm_num)
    (processF_replicate hall _)⟩

/-- C3 (amended): a NaN coordinate reaching the engine propagates through the
distance computation and the minimum of every point of the set, each NaN
minimum passes the infinity test and is appended, and the aggregation then
includes the NaN results instead of excluding them: every statistic of the
operator becomes NaN while count still equals the full number of points. -/
theorem c3_nan_poisons_aggregation (coords : List (Option ℝ × Option ℝ)) (cs : ℕ)
    (op : String) (k : ℕ) (hk : k < coords.length) (hN : 2 ≤ coords.length)
    (hnan : (coords.getD k (none, none)).1 = none ∨
      (coords.getD k (none, none)).2 = none) :
    process_operator_chunkF (coords, cs) = List.replicate coords.length none ∧
      calculate_operator_distancesF [(op, coords)] =
        [(op, ⟨none, none, none, none, none, coords.length⟩)] := by
  have hall := pointMinF_none hk hnan hN
  exact ⟨processF_replicate hall cs, calculateF_single hN (processF_replicate hall _)⟩

theorem c3_witness :
    process_operator_chunkF ([(some (2:ℝ), (none : Option ℝ)), (some 3, some 4)], 9) =
        List.replicate 2 none ∧
      calculate_operator_distancesF
          [("B", [(some (2:ℝ), (none : Option ℝ)), (some 3, some 4)])] =
        [("B", ⟨none, none, none, none, none, 2⟩)] :=
  c3_nan_poisons_aggregation [(some (2:ℝ), (none : Option ℝ)), (some 3, some 4)] 9 "B" 0
    (by norm_num) (by norm_num) (Or.inr rfl)

end Cartora
